import Mathlib

/-!
Verification of the one-factor LIBOR Market Model simulator from
`src/forward_rate_models/Libor_Market_Model.ipynb`.

The Python entry point is `one_factor_LIBOR_Market_Model(time_step, maturity,
zero_curve, forward_rate_volatilities, N)`.  We embed it shallowly:

* `time_step`, `maturity` are modelled as exact rationals (Python float
  literals are binary rationals); the rate arithmetic itself is over `ℝ`.
* `steps = int(maturity / time_step) + 1` uses Python's `int`, which
  truncates toward zero; `pythonInt` models that truncation.
* the per-path matrix `forward_rate` is a total function `ℕ → ℕ → ℝ` that is
  `0` outside the written region (NumPy's `np.zeros` initialisation).
* the stream of `np.random.standard_normal()` draws is an input `es : ℕ → ℝ`,
  consumed in program order: within a path, the draw used to write
  `forward_rate[k][j+1]` is draw number `(Σ_{i<k} i) + j`; path `n` uses the
  block of the stream starting at `n * drawsPerPath`.
* Python `for`-loops over `range` become structural recursion on the trip
  count (`rowSimAux` is the inner `for j in range(k)` loop, `pathAux` the
  outer `for k in range(1, steps - 1)` loop, iterations applied in order).
* the two `raise ValueError` sites become `Except.error`; the spec's name for
  this error class is `InsufficientInputLength`.  The spec's other error
  classes (`InvalidParameter`, `NumericDomainError`, `IndexOutOfRange`) are
  present in the error type so that their absence from the code's behaviour
  can be stated.
-/

namespace LMM

/-- A forward-rate matrix, indexed `F k j` with tenor `k` first, as in the
Python `forward_rate[k][j]`. -/
abbrev Mat := ℕ → ℕ → ℝ

/-- Python's `int()` conversion on a rational value: truncation toward zero. -/
def pythonInt (q : ℚ) : ℤ := if 0 ≤ q then ⌊q⌋ else -⌊-q⌋

/-- `steps = int(maturity / time_step) + 1` from the source. -/
def computeSteps (time_step maturity : ℚ) : ℤ := pythonInt (maturity / time_step) + 1

/-- `B_0[i] = 1 / (1 + zero_curve[i]) ** (i + 1)` from the source. -/
noncomputable def B_0 (zero_curve : List ℝ) (i : ℕ) : ℝ :=
  1 / (1 + zero_curve.getD i 0) ^ (i + 1)

/-- `forward_rate_from_zero[i][0] = (1 / Delta[i]) * (B_0[i] / B_0[i + 1] - 1)`
from the source, where `Delta[i] = time_step` (`np.full((steps - 1), time_step)`). -/
noncomputable def forward_rate_from_zero (time_step : ℚ) (zero_curve : List ℝ) (k : ℕ) : ℝ :=
  (1 / (time_step : ℝ)) * (B_0 zero_curve k / B_0 zero_curve (k + 1) - 1)

/-- The drift accumulator `sum1` of the source: the loop
`for i in range(j + 1, k + 1): sum1 += (Delta[i] * F[i][j] * vol[i-j-1] * vol[k-j-1]) / (1 + Delta[i] * F[i][j])`. -/
noncomputable def driftSum (Delta sig : ℕ → ℝ) (F : Mat) (k j : ℕ) : ℝ :=
  ∑ i ∈ Finset.Icc (j + 1) k,
    (Delta i * F i j * sig (i - j - 1) * sig (k - j - 1)) / (1 + Delta i * F i j)

/-- The value written by one update of the source's inner loop:
`F[k][j] * exp((sum1 - vol[k-j-1]^2 / 2) * Delta[j] + vol[k-j-1] * e * sqrt(Delta[j]))`. -/
noncomputable def updVal (Delta sig : ℕ → ℝ) (e : ℝ) (F : Mat) (k j : ℕ) : ℝ :=
  F k j * Real.exp ((driftSum Delta sig F k j - sig (k - j - 1) ^ 2 / 2) * Delta j
      + sig (k - j - 1) * e * Real.sqrt (Delta j))

/-- One iteration of the inner loop body: the assignment
`forward_rate[k][j + 1] = ...`, leaving every other entry unchanged. -/
noncomputable def updateStep (Delta sig : ℕ → ℝ) (e : ℝ) (k j : ℕ) (F : Mat) : Mat :=
  fun k' j' => if k' = k ∧ j' = j + 1 then updVal Delta sig e F k j else F k' j'

/-- Position in the per-path draw stream of the draw consumed when writing
`forward_rate[k][j + 1]`: the number of draws consumed before it, namely one
per earlier update `(k', j')` in program order. -/
def drawsBefore (k j : ℕ) : ℕ := (∑ i ∈ Finset.range k, i) + j

/-- Total number of standard-normal draws consumed by one path:
`Σ_{k=1}^{steps-2} k`. -/
def drawsPerPath (s : ℕ) : ℕ := ∑ i ∈ Finset.range (s - 1), i

/-- The inner loop `for j in range(n): forward_rate[k][j + 1] = ...`,
iterations `j = 0, …, n - 1` applied in order (the source runs it with
`n = k`). -/
noncomputable def rowSimAux (Delta sig es : ℕ → ℝ) (k : ℕ) : ℕ → Mat → Mat
  | 0, F => F
  | n + 1, F => updateStep Delta sig (es (drawsBefore k n)) k n (rowSimAux Delta sig es k n F)

/-- The outer loop `for k in range(1, steps - 1)`, iterations
`k = 1, …, n` applied in order; each runs the inner loop with `k` iterations. -/
noncomputable def pathAux (Delta sig es : ℕ → ℝ) : ℕ → Mat → Mat
  | 0, F => F
  | n + 1, F => rowSimAux Delta sig es (n + 1) (n + 1) (pathAux Delta sig es n F)

/-- The per-path matrix before the simulation loops: `np.zeros((steps-1, steps-1))`
followed by `for i in range(steps - 1): forward_rate[i][0] = forward_rate_from_zero[i][0]`. -/
noncomputable def initMat (s : ℕ) (init : ℕ → ℝ) : Mat :=
  fun k j => if j = 0 ∧ k < s - 1 then init k else 0

/-- One full Monte Carlo path: the initial matrix followed by the two nested
simulation loops (`s` is `steps`). -/
noncomputable def simulatePath (s : ℕ) (Delta sig init es : ℕ → ℝ) : Mat :=
  pathAux Delta sig es (s - 2) (initMat s init)

/-- The output matrix of the source once the length checks have passed:
`forward_rate_mc` accumulates the `N` path matrices (`for n in range(N)`)
and is divided elementwise by `N` at the end.  `N` is a Python `int`, so it
is modelled as `ℤ`, `range(N)` as `Finset.range N.toNat`. -/
noncomputable def lmmOutput (time_step maturity : ℚ) (zero_curve vols : List ℝ)
    (N : ℤ) (es : ℕ → ℝ) : Mat :=
  fun k j =>
    (∑ n ∈ Finset.range N.toNat,
        simulatePath (computeSteps time_step maturity).toNat (fun _ => (time_step : ℝ))
          (fun m => vols.getD m 0) (forward_rate_from_zero time_step zero_curve)
          (fun m => es (n * drawsPerPath (computeSteps time_step maturity).toNat + m)) k j)
      / (N : ℝ)

/-- Error taxonomy of the specification.  The source only ever raises its two
`ValueError`s, both input-length checks, modelled by `insufficientInputLength`. -/
inductive LMMError
  | insufficientInputLength (param : String)
  | invalidParameter (param : String)
  | numericDomainError
  | indexOutOfRange
deriving DecidableEq

/-- The entry point `one_factor_LIBOR_Market_Model`: the two length checks at
the top of the function, then the simulation and averaging. -/
noncomputable def one_factor_LIBOR_Market_Model (time_step maturity : ℚ)
    (zero_curve vols : List ℝ) (N : ℤ) (es : ℕ → ℝ) : Except LMMError Mat :=
  if (zero_curve.length : ℤ) < computeSteps time_step maturity then
    .error (.insufficientInputLength "zero_curve")
  else if (vols.length : ℤ) < computeSteps time_step maturity - 1 then
    .error (.insufficientInputLength "forward_rate_volatilities")
  else
    .ok (lmmOutput time_step maturity zero_curve vols N es)

/-! ### Structural lemmas about the loops -/

theorem updateStep_apply_ne (Delta sig : ℕ → ℝ) (e : ℝ) (k j : ℕ) (F : Mat)
    (k' j' : ℕ) (h : ¬(k' = k ∧ j' = j + 1)) :
    updateStep Delta sig e k j F k' j' = F k' j' := by
  simp only [updateStep, if_neg h]

/-- Entries outside the write set of the inner loop (row `k`, columns `1..n`)
are untouched by it. -/
theorem rowSimAux_not_written (Delta sig es : ℕ → ℝ) (k : ℕ) :
    ∀ (n : ℕ) (F : Mat) (k' j' : ℕ), (k' ≠ k ∨ j' = 0 ∨ n < j') →
      rowSimAux Delta sig es k n F k' j' = F k' j' := by
  intro n
  induction n with
  | zero => intro F k' j' _; rfl
  | succ n ih =>
    intro F k' j' h
    have hne : ¬(k' = k ∧ j' = n + 1) := by
      rcases h with h | h | h
      · exact fun hc => h hc.1
      · exact fun hc => by omega
      · exact fun hc => by omega
    rw [rowSimAux, updateStep_apply_ne _ _ _ _ _ _ _ _ hne]
    refine ih F k' j' ?_
    rcases h with h | h | h
    · exact Or.inl h
    · exact Or.inr (Or.inl h)
    · exact Or.inr (Or.inr (by omega))

/-- Once the inner loop has passed column `j'`, that column of row `k` no
longer changes. -/
theorem rowSimAux_stable (Delta sig es : ℕ → ℝ) (k : ℕ) (F : Mat) (m : ℕ) :
    ∀ (n : ℕ), m ≤ n → ∀ k' j', (k' ≠ k ∨ j' ≤ m) →
      rowSimAux Delta sig es k n F k' j' = rowSimAux Delta sig es k m F k' j' := by
  intro n hmn
  induction n, hmn using Nat.le_induction with
  | base => intro k' j' _; rfl
  | succ n hmn ih =>
    intro k' j' h
    have hne : ¬(k' = k ∧ j' = n + 1) := by
      rcases h with h | h
      · exact fun hc => h hc.1
      · exact fun hc => by omega
    rw [rowSimAux, updateStep_apply_ne _ _ _ _ _ _ _ _ hne]
    exact ih k' j' h

/-- The value of an entry written by the inner loop, expressed in terms of the
matrix state just before that iteration. -/
theorem rowSimAux_write (Delta sig es : ℕ → ℝ) (k : ℕ) (F : Mat) (n j : ℕ)
    (hj : j < n) :
    rowSimAux Delta sig es k n F k (j + 1)
      = updVal Delta sig (es (drawsBefore k j)) (rowSimAux Delta sig es k j F) k j := by
  have h1 : rowSimAux Delta sig es k n F k (j + 1)
      = rowSimAux Delta sig es k (j + 1) F k (j + 1) :=
    rowSimAux_stable Delta sig es k F (j + 1) n hj k (j + 1) (Or.inr le_rfl)
  rw [h1, rowSimAux]
  simp [updateStep]

/-- The update value reads only the current entry and column `j` at rows
`j+1 … k`: matrices agreeing there get the same update. -/
theorem updVal_congr (Delta sig : ℕ → ℝ) (e : ℝ) (F G : Mat) (k j : ℕ)
    (hj : j < k) (hread : ∀ i, j + 1 ≤ i → i ≤ k → F i j = G i j) :
    updVal Delta sig e F k j = updVal Delta sig e G k j := by
  have hs : driftSum Delta sig F k j = driftSum Delta sig G k j := by
    refine Finset.sum_congr rfl ?_
    intro i hi
    rcases Finset.mem_Icc.mp hi with ⟨h1, h2⟩
    rw [hread i h1 h2]
  unfold updVal
  rw [hs, hread k hj le_rfl]

/-- Entries outside the write region of the simulation loops
(rows `1..n`, within each row columns `1..row`) are untouched. -/
theorem pathAux_not_written (Delta sig es : ℕ → ℝ) :
    ∀ (n : ℕ) (F : Mat) (k' j' : ℕ), (k' = 0 ∨ n < k' ∨ j' = 0 ∨ k' < j') →
      pathAux Delta sig es n F k' j' = F k' j' := by
  intro n
  induction n with
  | zero => intro F k' j' _; rfl
  | succ n ih =>
    intro F k' j' h
    have hrow : (k' ≠ n + 1 ∨ j' = 0 ∨ n + 1 < j') := by
      rcases h with h | h | h | h
      · exact Or.inl (by omega)
      · exact Or.inl (by omega)
      · exact Or.inr (Or.inl h)
      · by_cases hk : k' = n + 1
        · exact Or.inr (Or.inr (by omega))
        · exact Or.inl hk
    rw [pathAux, rowSimAux_not_written Delta sig es (n + 1) (n + 1) _ k' j' hrow]
    refine ih F k' j' ?_
    rcases h with h | h | h | h
    · exact Or.inl h
    · exact Or.inr (Or.inl (by omega))
    · exact Or.inr (Or.inr (Or.inl h))
    · exact Or.inr (Or.inr (Or.inr h))

/-- Once the outer loop has passed row `k'`, that row no longer changes. -/
theorem pathAux_stable (Delta sig es : ℕ → ℝ) (F : Mat) (m : ℕ) :
    ∀ (n : ℕ), m ≤ n → ∀ k' j', k' ≤ m →
      pathAux Delta sig es n F k' j' = pathAux Delta sig es m F k' j' := by
  intro n hmn
  induction n, hmn using Nat.le_induction with
  | base => intro k' j' _; rfl
  | succ n hmn ih =>
    intro k' j' hk
    rw [pathAux, rowSimAux_not_written Delta sig es (n + 1) (n + 1) _ k' j'
      (Or.inl (by omega))]
    exact ih k' j' hk

/-- The defining equation of the simulation, read off the final matrix of the
outer loop: entry `(k, j+1)` equals the update formula applied to the final
matrix itself (legitimate because every entry is written at most once). -/
theorem pathAux_step (Delta sig es : ℕ → ℝ) (n : ℕ) (F : Mat) (k j : ℕ)
    (hk1 : 1 ≤ k) (hk2 : k ≤ n) (hj : j < k) :
    pathAux Delta sig es n F k (j + 1)
      = updVal Delta sig (es (drawsBefore k j)) (pathAux Delta sig es n F) k j := by
  obtain ⟨k0, rfl⟩ : ∃ k0, k = k0 + 1 := ⟨k - 1, by omega⟩
  have h1 : pathAux Delta sig es n F (k0 + 1) (j + 1)
      = pathAux Delta sig es (k0 + 1) F (k0 + 1) (j + 1) :=
    pathAux_stable Delta sig es F (k0 + 1) n hk2 (k0 + 1) (j + 1) le_rfl
  rw [h1, pathAux,
    rowSimAux_write Delta sig es (k0 + 1) (pathAux Delta sig es k0 F) (k0 + 1) j hj]
  refine updVal_congr Delta sig _ _ _ (k0 + 1) j hj ?_
  intro i h1i h2i
  by_cases hik : i = k0 + 1
  · subst hik
    have ha : rowSimAux Delta sig es (k0 + 1) j (pathAux Delta sig es k0 F) (k0 + 1) j
        = rowSimAux Delta sig es (k0 + 1) (k0 + 1) (pathAux Delta sig es k0 F) (k0 + 1) j := by
      exact (rowSimAux_stable Delta sig es (k0 + 1) (pathAux Delta sig es k0 F) j
        (k0 + 1) (by omega) (k0 + 1) j (Or.inr le_rfl)).symm
    rw [ha, ← pathAux]
    exact (pathAux_stable Delta sig es F (k0 + 1) n hk2 (k0 + 1) j le_rfl).symm
  · have hi : i ≤ k0 := by omega
    rw [rowSimAux_not_written Delta sig es (k0 + 1) j _ i j (Or.inl hik)]
    exact (pathAux_stable Delta sig es F k0 n (by omega) i j hi).symm

/-- Draw-stream positions are distinct across distinct updates: the draw
consumed when writing `(k, j+1)` is fresh. -/
theorem drawsBefore_inj (k j k' j' : ℕ) (hj : j < k) (hj' : j' < k')
    (h : drawsBefore k j = drawsBefore k' j') : k = k' ∧ j = j' := by
  rcases Nat.lt_trichotomy k k' with hlt | heq | hgt
  · exfalso
    have h1 : drawsBefore k j < (∑ i ∈ Finset.range (k + 1), i) := by
      rw [Finset.sum_range_succ]
      unfold drawsBefore
      omega
    have h2 : (∑ i ∈ Finset.range (k + 1), i) ≤ (∑ i ∈ Finset.range k', i) :=
      Finset.sum_le_sum_of_subset (Finset.range_subset.mpr hlt)
    have h3 : (∑ i ∈ Finset.range k', i) ≤ drawsBefore k' j' := Nat.le_add_right _ _
    omega
  · subst heq
    exact ⟨rfl, by unfold drawsBefore at h; omega⟩
  · exfalso
    have h1 : drawsBefore k' j' < (∑ i ∈ Finset.range (k' + 1), i) := by
      rw [Finset.sum_range_succ]
      unfold drawsBefore
      omega
    have h2 : (∑ i ∈ Finset.range (k' + 1), i) ≤ (∑ i ∈ Finset.range k, i) :=
      Finset.sum_le_sum_of_subset (Finset.range_subset.mpr hgt)
    have h3 : (∑ i ∈ Finset.range k, i) ≤ drawsBefore k j := Nat.le_add_right _ _
    omega

/-- Column `0` of a path matrix is exactly the initial forward-rate column:
the simulation loops never write column `0`. -/
theorem simulatePath_col_zero (s : ℕ) (Delta sig init es : ℕ → ℝ) (k : ℕ) :
    simulatePath s Delta sig init es k 0 = if k < s - 1 then init k else 0 := by
  unfold simulatePath
  rw [pathAux_not_written Delta sig es (s - 2) _ k 0 (Or.inr (Or.inr (Or.inl rfl)))]
  simp [initMat]

/-- Entries strictly above the diagonal of a path matrix stay `0`: they are
never written by the simulation loops. -/
theorem simulatePath_upper (s : ℕ) (Delta sig init es : ℕ → ℝ) (k j : ℕ) (h : k < j) :
    simulatePath s Delta sig init es k j = 0 := by
  unfold simulatePath
  rw [pathAux_not_written Delta sig es (s - 2) _ k j (Or.inr (Or.inr (Or.inr h)))]
  have hj : ¬(j = 0 ∧ k < s - 1) := fun hc => by omega
  simp [initMat, if_neg hj]

theorem getD_zero (l : List ℝ) (h : ∀ x ∈ l, x = 0) (i : ℕ) : l.getD i 0 = 0 := by
  rcases Nat.lt_or_ge i l.length with hi | hi
  · rw [List.getD_eq_getElem l 0 hi]
    exact h _ (List.getElem_mem hi)
  · rw [List.getD_eq_default l 0 hi]

/-- With an all-zero volatility function the drift vanishes, the exponent is
`0`, and every row of the path matrix is constant up to its own diagonal. -/
theorem simulatePath_const_of_vol_zero (s : ℕ) (Delta init es : ℕ → ℝ) (sig : ℕ → ℝ)
    (hsig : ∀ i, sig i = 0) (k : ℕ) :
    ∀ j, j ≤ k → simulatePath s Delta sig init es k j = simulatePath s Delta sig init es k 0 := by
  intro j
  induction j with
  | zero => intro _; rfl
  | succ j ih =>
    intro hj
    by_cases hk : k ≤ s - 2
    · have hstep := pathAux_step Delta sig es (s - 2) (initMat s init) k j
        (by omega) hk (by omega)
      unfold simulatePath
      rw [hstep]
      have hdrift : driftSum Delta sig (pathAux Delta sig es (s - 2) (initMat s init)) k j
          = 0 := by
        refine Finset.sum_eq_zero ?_
        intro i _
        rw [hsig, hsig]
        ring
      unfold updVal
      rw [hdrift]
      simp only [hsig]
      norm_num [Real.exp_zero]
      exact ih (by omega)
    · have hk2 : s - 2 < k := by omega
      unfold simulatePath
      rw [pathAux_not_written Delta sig es (s - 2) _ k (j + 1) (Or.inr (Or.inl hk2)),
        pathAux_not_written Delta sig es (s - 2) _ k 0 (Or.inr (Or.inl hk2))]
      have h0 : ¬ k < s - 1 := by omega
      simp [initMat, h0]

/-! ### The claims -/

/-- C1: for every path, every tenor `k ∈ [1, steps-2]` and step `j ∈ [0, k-1]`,
the simulator performs the update
`F[k][j+1] = F[k][j] * exp((drift(k,j) - sigma[k-j-1]^2/2) * Delta[j]
  + sigma[k-j-1] * e * sqrt(Delta[j]))`
where `e` is the fresh standard-normal draw consumed at that update (position
`drawsBefore k j` of the path's stream — fresh because distinct updates use
distinct positions, the second conjunct) and `drift(k,j)` is
`Σ_{i=j+1}^{k} Delta[i]*F[i][j]*sigma[i-j-1]*sigma[k-j-1] / (1 + Delta[i]*F[i][j])`
(the definition `driftSum`), all read off the finished path matrix. -/
theorem claim_c1 (s : ℕ) (Delta sig init es : ℕ → ℝ) (k j : ℕ)
    (hk1 : 1 ≤ k) (hk2 : k ≤ s - 2) (hj : j < k) :
    simulatePath s Delta sig init es k (j + 1)
      = simulatePath s Delta sig init es k j
          * Real.exp ((driftSum Delta sig (simulatePath s Delta sig init es) k j
                - sig (k - j - 1) ^ 2 / 2) * Delta j
              + sig (k - j - 1) * es (drawsBefore k j) * Real.sqrt (Delta j))
    ∧ (∀ k' j', j' < k' → drawsBefore k j = drawsBefore k' j' → k = k' ∧ j = j') := by
  refine ⟨?_, fun k' j' hj' h => drawsBefore_inj k j k' j' hj hj' h⟩
  unfold simulatePath
  exact pathAux_step Delta sig es (s - 2) (initMat s init) k j hk1 hk2 hj

theorem claim_c1_witness :
    simulatePath 4 (fun _ => 1) (fun _ => 1) (fun _ => 1) (fun _ => 0) 2 (0 + 1)
      = simulatePath 4 (fun _ => 1) (fun _ => 1) (fun _ => 1) (fun _ => 0) 2 0
          * Real.exp ((driftSum (fun _ => 1) (fun _ => 1)
                (simulatePath 4 (fun _ => 1) (fun _ => 1) (fun _ => 1) (fun _ => 0)) 2 0
              - (1 : ℝ) ^ 2 / 2) * 1 + 1 * 0 * Real.sqrt 1) :=
  (claim_c1 4 (fun _ => 1) (fun _ => 1) (fun _ => 1) (fun _ => 0) 2 0
    (by norm_num) (by norm_num) (by norm_num)).1

/-- C2: the initial forward rate is
`F[k][0] = (1/Delta[k]) * (B0[k]/B0[k+1] - 1)` (second conjunct, with
`Delta[k] = time_step`), and for every tenor `k ≤ steps - 2` the averaged
output's column `0` equals exactly this deterministic value, for every path
count `N > 0` and every draw stream (first conjunct: `N` and `es` are
arbitrary and absent from the right-hand side). -/
theorem claim_c2 (ts m : ℚ) (zc vols : List ℝ) (N : ℤ) (es : ℕ → ℝ) (k : ℕ)
    (hN : 0 < N) (hk : k < (computeSteps ts m).toNat - 1) :
    lmmOutput ts m zc vols N es k 0 = forward_rate_from_zero ts zc k
    ∧ forward_rate_from_zero ts zc k
        = (1 / (ts : ℝ)) * (B_0 zc k / B_0 zc (k + 1) - 1) := by
  refine ⟨?_, rfl⟩
  unfold lmmOutput
  have hpath : ∀ n ∈ Finset.range N.toNat,
      simulatePath (computeSteps ts m).toNat (fun _ => (ts : ℝ)) (fun i => vols.getD i 0)
        (forward_rate_from_zero ts zc)
        (fun i => es (n * drawsPerPath (computeSteps ts m).toNat + i)) k 0
      = forward_rate_from_zero ts zc k := by
    intro n _
    rw [simulatePath_col_zero, if_pos hk]
  rw [Finset.sum_congr rfl hpath, Finset.sum_const, Finset.card_range, nsmul_eq_mul]
  have hcast : ((N.toNat : ℕ) : ℝ) = (N : ℝ) := by exact_mod_cast Int.toNat_of_nonneg hN.le
  have hN0 : (N : ℝ) ≠ 0 := Int.cast_ne_zero.mpr hN.ne'
  rw [hcast, mul_div_cancel_left₀ _ hN0]

theorem claim_c2_witness :
    (0 : ℤ) < 3 ∧ 0 < (computeSteps 1 1).toNat - 1
    ∧ lmmOutput 1 1 [0, 0] [0] 3 (fun _ => 0) 0 0 = forward_rate_from_zero 1 [0, 0] 0 :=
  ⟨by norm_num, by norm_num [computeSteps, pythonInt],
    (claim_c2 1 1 [0, 0] [0] 3 (fun _ => 0) 0 (by norm_num)
      (by norm_num [computeSteps, pythonInt])).1⟩

/-- C3: the discount factor is computed as
`B0[i] = 1 / (1 + zero_curve[i])^(i+1)`; equivalently (second conjunct),
whenever `1 + zero_curve[i] ≠ 0`, `B0[i]` is the reciprocal of the discrete
annual compounding factor of the zero rate at index `i` over `i+1` periods. -/
theorem claim_c3 (zc : List ℝ) (i : ℕ) :
    B_0 zc i = 1 / (1 + zc.getD i 0) ^ (i + 1)
    ∧ (1 + zc.getD i 0 ≠ 0 → (1 + zc.getD i 0) ^ (i + 1) * B_0 zc i = 1) := by
  refine ⟨rfl, fun h => ?_⟩
  unfold B_0
  rw [one_div, mul_inv_cancel₀ (pow_ne_zero _ h)]

theorem claim_c3_witness :
    (1 : ℝ) + ([(1 : ℝ)].getD 0 0) ≠ 0
    ∧ (1 + ([(1 : ℝ)].getD 0 0)) ^ (0 + 1) * B_0 [(1 : ℝ)] 0 = 1 :=
  ⟨by norm_num [List.getD], (claim_c3 [(1 : ℝ)] 0).2 (by norm_num [List.getD])⟩

/-- C4: if `len(zero_curve) < steps` or `len(forward_rate_volatilities) < steps - 1`
the entry point fails with an input-length error (`insufficientInputLength`);
the checks are the first thing the function does, so no simulation output is
produced (the result is `Except.error`, carrying no matrix). -/
theorem claim_c4 (ts m : ℚ) (zc vols : List ℝ) (N : ℤ) (es : ℕ → ℝ)
    (h : (zc.length : ℤ) < computeSteps ts m
      ∨ (vols.length : ℤ) < computeSteps ts m - 1) :
    ∃ p, one_factor_LIBOR_Market_Model ts m zc vols N es
        = .error (.insufficientInputLength p) := by
  unfold one_factor_LIBOR_Market_Model
  by_cases h1 : (zc.length : ℤ) < computeSteps ts m
  · exact ⟨"zero_curve", by rw [if_pos h1]⟩
  · have h2 : (vols.length : ℤ) < computeSteps ts m - 1 := h.resolve_left h1
    exact ⟨"forward_rate_volatilities", by rw [if_neg h1, if_pos h2]⟩

theorem claim_c4_witness :
    ∃ p, one_factor_LIBOR_Market_Model 1 1 [] [] 1 (fun _ => 0)
        = .error (.insufficientInputLength p) :=
  claim_c4 1 1 [] [] 1 (fun _ => 0) (Or.inl (by norm_num [computeSteps, pythonInt]))

/-- C5 as stated is false: the code performs no validation of `N` at all.
This counterexample calls the entry point with `N = 0` and well-sized inputs
(`steps = 2`): the result is `Except.ok` of an output matrix, not an
`InvalidParameter` error.  (In NumPy the final `forward_rate_mc / N` emits a
warning and fills the matrix with NaN; it does not raise.) -/
theorem claim_c5_counterexample :
    one_factor_LIBOR_Market_Model 1 1 [0, 0] [0] 0 (fun _ => 0)
      = .ok (lmmOutput 1 1 [0, 0] [0] 0 (fun _ => 0)) := by
  have hs : computeSteps 1 1 = 2 := by norm_num [computeSteps, pythonInt]
  unfold one_factor_LIBOR_Market_Model
  rw [hs]
  norm_num

/-- C5, amended: calling the entry point with `N ≤ 0` does not fail — no
check on `N` exists, and whenever the two length checks pass the entry point
returns an output matrix. -/
theorem claim_c5 (ts m : ℚ) (zc vols : List ℝ) (N : ℤ) (es : ℕ → ℝ)
    (hN : N ≤ 0)
    (h1 : ¬ (zc.length : ℤ) < computeSteps ts m)
    (h2 : ¬ (vols.length : ℤ) < computeSteps ts m - 1) :
    one_factor_LIBOR_Market_Model ts m zc vols N es
      = .ok (lmmOutput ts m zc vols N es) := by
  unfold one_factor_LIBOR_Market_Model
  rw [if_neg h1, if_neg h2]

theorem claim_c5_witness :
    one_factor_LIBOR_Market_Model 1 1 [0, 0] [0] (-1) (fun _ => 0)
      = .ok (lmmOutput 1 1 [0, 0] [0] (-1) (fun _ => 0)) :=
  claim_c5 1 1 [0, 0] [0] (-1) (fun _ => 0) (by norm_num)
    (by norm_num [computeSteps, pythonInt]) (by norm_num [computeSteps, pythonInt])

/-- C6 as stated is false: the code performs no positivity validation.  This
counterexample calls the entry point with `maturity = 0` (so `maturity ≤ 0`):
`steps` evaluates to `1`, both length checks pass, and the call returns
`Except.ok` of a (0×0) output matrix instead of an `InvalidParameter` error. -/
theorem claim_c6_counterexample :
    one_factor_LIBOR_Market_Model 1 0 [0] [] 5 (fun _ => 0)
      = .ok (lmmOutput 1 0 [0] [] 5 (fun _ => 0)) := by
  have hs : computeSteps 1 0 = 1 := by norm_num [computeSteps, pythonInt]
  unfold one_factor_LIBOR_Market_Model
  rw [hs]
  norm_num

/-- C6, amended: non-positive `time_step`/`maturity` are not rejected with
`InvalidParameter` (the counterexample; `time_step = 0` would raise Python's
`ZeroDivisionError` instead), but for `time_step > 0` and `maturity > 0` the
entry point does compute `steps = floor(maturity / time_step) + 1`: on a
positive quotient Python's toward-zero `int()` agrees with the floor. -/
theorem claim_c6 (ts m : ℚ) (hts : 0 < ts) (hm : 0 < m) :
    computeSteps ts m = ⌊m / ts⌋ + 1 := by
  unfold computeSteps pythonInt
  rw [if_pos (by positivity)]

theorem claim_c6_witness : computeSteps (1 / 4) 1 = ⌊(1 : ℚ) / (1 / 4)⌋ + 1 :=
  claim_c6 (1 / 4) 1 (by norm_num) (by norm_num)

/-- C7 as stated is false: the code contains no numeric-domain detection at
all.  Counterexample: with `zero_curve = [-2, -2, -2]` the initial forward
rate `F[1][0]` equals `-2 ≤ -1/Delta[1]` — exactly the claim's trigger
condition, making the drift denominator `1 + Delta[1]*F[1][0]` negative — yet
the entry point returns `Except.ok` of an output matrix, with no
`NumericDomainError`. -/
theorem claim_c7_counterexample :
    one_factor_LIBOR_Market_Model 1 2 [-2, -2, -2] [1, 1] 1 (fun _ => 0)
      = .ok (lmmOutput 1 2 [-2, -2, -2] [1, 1] 1 (fun _ => 0))
    ∧ forward_rate_from_zero 1 [-2, -2, -2] 1 ≤ -(1 / (1 : ℝ)) := by
  constructor
  · have hs : computeSteps 1 2 = 3 := by norm_num [computeSteps, pythonInt]
    unfold one_factor_LIBOR_Market_Model
    rw [hs]
    norm_num
  · unfold forward_rate_from_zero B_0
    norm_num [List.getD]

/-- C7, amended: the entry point never surfaces a `NumericDomainError` — its
only error exits are the two input-length checks, and once those pass it
always returns a matrix, silently carrying any ill-conditioned intermediate
values (NaN/inf in the floating-point original) into the output. -/
theorem claim_c7 (ts m : ℚ) (zc vols : List ℝ) (N : ℤ) (es : ℕ → ℝ) :
    one_factor_LIBOR_Market_Model ts m zc vols N es ≠ .error .numericDomainError := by
  unfold one_factor_LIBOR_Market_Model
  by_cases h1 : (zc.length : ℤ) < computeSteps ts m
  · rw [if_pos h1]
    simp
  · rw [if_neg h1]
    by_cases h2 : (vols.length : ℤ) < computeSteps ts m - 1
    · rw [if_pos h2]
      simp
    · rw [if_neg h2]
      simp

/-- C8: if every entry of `forward_rate_volatilities` is `0`, then for every
tenor `k` and step `j ≤ k` the simulated path satisfies `F[k][j] = F[k][0]`
for every draw stream (first conjunct), and so does the averaged output
matrix (second conjunct): with zero volatility every drift summand vanishes
and the exponential factor is `exp 0 = 1`. -/
theorem claim_c8 (vols : List ℝ) (hv : ∀ x ∈ vols, x = 0) :
    (∀ (s : ℕ) (Delta init es : ℕ → ℝ) (k j : ℕ), j ≤ k →
        simulatePath s Delta (fun i => vols.getD i 0) init es k j
          = simulatePath s Delta (fun i => vols.getD i 0) init es k 0)
    ∧ (∀ (ts m : ℚ) (zc : List ℝ) (N : ℤ) (es : ℕ → ℝ) (k j : ℕ), j ≤ k →
        lmmOutput ts m zc vols N es k j = lmmOutput ts m zc vols N es k 0) := by
  have hsig : ∀ i, vols.getD i 0 = 0 := getD_zero vols hv
  constructor
  · intro s Delta init es k j hj
    exact simulatePath_const_of_vol_zero s Delta init es _ hsig k j hj
  · intro ts m zc N es k j hj
    unfold lmmOutput
    congr 1
    refine Finset.sum_congr rfl ?_
    intro n _
    exact simulatePath_const_of_vol_zero _ _ _ _ _ hsig k j hj

theorem claim_c8_witness :
    lmmOutput 1 3 [0, 0, 0, 0] [0, 0, 0] 2 (fun _ => 0) 2 1
      = lmmOutput 1 3 [0, 0, 0, 0] [0, 0, 0] 2 (fun _ => 0) 2 0 :=
  (claim_c8 [0, 0, 0] (by simp)).2 1 3 [0, 0, 0, 0] 2 (fun _ => 0) 2 1 (by norm_num)

/-- C9: the simulation loops only ever write entries with column `≤` row —
entries with `k < j` are left exactly as the loops found them (first
conjunct) — and the value written over `(k, j+1)` reads only entries
`F[i][j]` with `j + 1 ≤ i ≤ k` (plus `F[k][j]`, which is among them since
`j < k`): two matrices agreeing there receive the same update (second
conjunct).  Hence no entry of the `j > k` region is ever read or written. -/
theorem claim_c9 (Delta sig es : ℕ → ℝ) :
    (∀ (n : ℕ) (F : Mat) (k j : ℕ), k < j → pathAux Delta sig es n F k j = F k j)
    ∧ (∀ (F G : Mat) (e : ℝ) (k j : ℕ), j < k →
        (∀ i, j + 1 ≤ i → i ≤ k → F i j = G i j) →
        updVal Delta sig e F k j = updVal Delta sig e G k j) := by
  constructor
  · intro n F k j h
    exact pathAux_not_written Delta sig es n F k j (Or.inr (Or.inr (Or.inr h)))
  · intro F G e k j hj hread
    exact updVal_congr Delta sig e F G k j hj hread

theorem claim_c9_witness :
    pathAux (fun _ => (1 : ℝ)) (fun _ => 1) (fun _ => 0) 2 (fun _ _ => 1) 0 1 = 1
    ∧ updVal (fun _ => (1 : ℝ)) (fun _ => 1) 0 (fun _ _ => 1) 2 1
        = updVal (fun _ => (1 : ℝ)) (fun _ => 1) 0 (fun _ _ => 1) 2 1 :=
  ⟨(claim_c9 (fun _ => 1) (fun _ => 1) (fun _ => 0)).1 2 (fun _ _ => 1) 0 1 (by norm_num),
    (claim_c9 (fun _ => 1) (fun _ => 1) (fun _ => 0)).2 (fun _ _ => 1) (fun _ _ => 1) 0 2 1
      (by norm_num) (fun _ _ _ => rfl)⟩

/-- C10: in the averaged output matrix every entry with column index `j`
strictly greater than row index `k` is exactly `0`: each per-path matrix
starts as zeros, the strict upper-triangular region is never written, and
summing zeros and dividing preserves `0`. -/
theorem claim_c10 (ts m : ℚ) (zc vols : List ℝ) (N : ℤ) (es : ℕ → ℝ) (k j : ℕ)
    (h : k < j) : lmmOutput ts m zc vols N es k j = 0 := by
  unfold lmmOutput
  rw [Finset.sum_eq_zero, zero_div]
  intro n _
  exact simulatePath_upper _ _ _ _ _ k j h

theorem claim_c10_witness : lmmOutput 1 1 [0, 0] [0] 1 (fun _ => 0) 0 1 = 0 :=
  claim_c10 1 1 [0, 0] [0] 1 (fun _ => 0) 0 1 (by norm_num)

end LMM
